import Mathlib

set_option maxHeartbeats 1000000

/-! Embedding of the bubbly schema engine (store/schemagraph.go, store/graphql.go,
    the store facade, and the cockroachdb provider wrapper). -/

/-- RelType describes the relationship type of a directed edge from a to b
    (schemagraph.go, const block with OneToOne, OneToMany, BelongsTo). -/
inductive RelType where
  | oneToOne
  | oneToMany
  | belongsTo
deriving DecidableEq, Repr

/-- Kinds of cty field types that the bubbly data model declares
    (spec data model: Bool, Number, String, Object, Map, List; the source
    dispatches on cty.Bool, cty.Number, cty.String, IsObjectType, IsMapType). -/
inductive CtyType where
  | bool
  | number
  | string
  | object
  | map
  | list
deriving DecidableEq, Repr

/-- core.TableField: a declared field of a table (name, type, unique). -/
structure TableField where
  name : String
  type : CtyType
  unique : Bool
deriving DecidableEq, Repr

/-- core.TableJoin: an explicit join declared on a table (table, single, unique). -/
structure TableJoin where
  table : String
  single : Bool
  unique : Bool
deriving DecidableEq, Repr

/-- core.Table: name, fields, explicit joins, the single flag, and nested tables. -/
inductive Table where
  | mk (name : String) (fields : List TableField) (joins : List TableJoin)
       (single : Bool) (tables : List Table)

/-- Name accessor for Table. -/
def Table.name : Table → String
  | ⟨n, _, _, _, _⟩ => n

/-- Fields accessor for Table. -/
def Table.fields : Table → List TableField
  | ⟨_, fs, _, _, _⟩ => fs

/-- Joins accessor for Table. -/
def Table.joins : Table → List TableJoin
  | ⟨_, _, js, _, _⟩ => js

/-- Single flag accessor for Table. -/
def Table.single : Table → Bool
  | ⟨_, _, _, s, _⟩ => s

/-- Nested tables accessor for Table. -/
def Table.tables : Table → List Table
  | ⟨_, _, _, _, ts⟩ => ts

/-- SchemaEdge: an edge of the schema graph, identified by the name of the node
    it points to (Go stores a node pointer; nodes are identified by table name
    via the NodeIndex) together with its relationship type. -/
structure SchemaEdge where
  node : String
  rel : RelType
deriving DecidableEq, Repr

/-- Association-list model of a Go map with string keys: assignment replaces
    an existing entry in place or appends a new one, so key sets are exact
    and a later write to the same key wins, as in Go. -/
def insertKV {α : Type} : List (String × α) → String → α → List (String × α)
  | [], k, v => [(k, v)]
  | (k', v') :: rest, k, v =>
      if k = k' then (k, v) :: rest else (k', v') :: insertKV rest k v

/-- Go map read returning the value stored under a key, if any. -/
def lookupKV {α : Type} : List (String × α) → String → Option α
  | [], _ => none
  | (k', v') :: rest, k => if k = k' then some v' else lookupKV rest k

/-- The per-node ordered edge lists of the graph, keyed by node (table) name.
    This models the Edges slice of every SchemaNode reachable from the
    nodeRefMap: Go mutates the slices in place, here the whole family of edge
    lists is threaded as a value.  A node absent from the list stands for a
    node whose Edges slice is still nil. -/
def EdgeMap := List (String × List SchemaEdge)

/-- The ordered edge list of one node (nil slice for a fresh node). -/
def getEdges (m : EdgeMap) (n : String) : List SchemaEdge :=
  (lookupKV m n).getD []

/-- Append one edge at the end of the edge list of one node (Go slice append). -/
def appendEdge (m : EdgeMap) (node : String) (e : SchemaEdge) : EdgeMap :=
  insertKV m node (getEdges m node ++ [e])

/-- addEdgeFromJoin (schemagraph.go): the parent node gets a OneToMany edge to
    the child (OneToOne when unique), and the child gets a BelongsTo edge back
    to the parent.  The parent edge is appended first, as in the source. -/
def addEdgeFromJoin (m : EdgeMap) (parent child : String) (unique : Bool) : EdgeMap :=
  let rel := if unique then RelType.oneToOne else RelType.oneToMany
  appendEdge (appendEdge m parent ⟨child, rel⟩) child ⟨parent, RelType.belongsTo⟩

/-- declaredNames collects the name of every table, nested tables included.
    This is the key set of the nodeRefMap that createFrom builds: the Go map
    keeps one node per name, membership in this list is what the
    connectFrom lookup tests. -/
def declaredNames : List Table → List String
  | [] => []
  | ⟨n, _, _, _, subs⟩ :: ts => n :: (declaredNames subs ++ declaredNames ts)

/-- connectJoins: the explicit-joins loop of connectFrom for one table.
    Each join target is looked up among the declared names; an unknown target
    aborts with the error built in the source, otherwise the pair of edges is
    added and the loop continues. -/
def connectJoins (d : List String) (child : String) :
    List TableJoin → EdgeMap → Except String EdgeMap
  | [], m => .ok m
  | j :: js, m =>
      if j.table ∈ d then
        connectJoins d child js (addEdgeFromJoin m j.table child j.single)
      else
        .error ("join refers to unknown table: " ++ child ++ " --> " ++ j.table)

/-- The edge the implicit-join branch of connectFrom adds: when the table is
    nested (parent present) it is connected exactly like an explicit join with
    the enclosing table as parent; a top-level table adds nothing. -/
def parentEdge (m : EdgeMap) (parent : Option String) (child : String) (single : Bool) :
    EdgeMap :=
  match parent with
  | some p => addEdgeFromJoin m p child single
  | none => m

/-- connectFrom (schemagraph.go): for every table, handle its explicit joins,
    then the implicit join to the enclosing table when nested, then recurse
    into the nested tables, then continue with the remaining tables.  The
    first unknown join target aborts the whole construction with its error. -/
def connectFrom (d : List String) :
    List Table → Option String → EdgeMap → Except String EdgeMap
  | [], _, m => .ok m
  | ⟨nm, _, js, sg, subs⟩ :: ts, parent, m =>
      match connectJoins d nm js m with
      | .error e => .error e
      | .ok m1 =>
          match connectFrom d subs (some nm) (parentEdge m1 parent nm sg) with
          | .error e => .error e
          | .ok m3 => connectFrom d ts parent m3

/-- createFrom (schemagraph.go): register one map entry per table name,
    recursing into nested tables inside the loop, so that for duplicate names
    the last assignment in this order wins, as for the Go map. -/
def createFrom : List Table → List (String × Table) → List (String × Table)
  | [], acc => acc
  | ⟨n, fs, js, sg, subs⟩ :: ts, acc =>
      createFrom ts (createFrom subs (insertKV acc n ⟨n, fs, js, sg, subs⟩))

/-- SchemaGraph: the root node list (graph.Nodes, stored by name), the edge
    lists of every node, and the NodeIndex from table name to table. -/
structure SchemaGraph where
  roots : List String
  edges : EdgeMap
  index : List (String × Table)

/-- NewSchemaGraph (schemagraph.go): build the node index, take as roots the
    top-level tables without joins, then connect all nodes; a connectFrom
    failure is wrapped and returned as the overall error. -/
def NewSchemaGraph (tables : List Table) : Except String SchemaGraph :=
  let d := declaredNames tables
  let index := createFrom tables []
  let roots := (tables.filter (fun t => t.joins.isEmpty)).map Table.name
  match connectFrom d tables none [] with
  | .ok m => .ok ⟨roots, m, index⟩
  | .error e => .error ("failed to create graph: " ++ e)

/-- Traversal model.  visitSchemaNode (schemagraph.go) applies the callback to
    the node, marks it visited, then recurses into every edge whose target is
    not yet visited.  The visited set is modelled as the list of node names in
    the order they were visited, so the returned list is also the visit order.
    Go recursion is unbounded but only ever enters unvisited nodes, so a fuel
    bound of one more than the number of distinct node names reproduces it
    exactly; the functions are stated for arbitrary fuel. -/
def visitNode (g : EdgeMap) : Nat → String → List String → List String
  | 0, _, vis => vis
  | fuel + 1, n, vis =>
      (getEdges g n).foldl
        (fun vis e => if e.node ∈ vis then vis else visitNode g fuel e.node vis)
        (vis ++ [n])

/-- Traverse (schemagraph.go): iterate over the root nodes, visiting each tree
    unless the root was already reached. -/
def traverseG (g : EdgeMap) (roots : List String) (fuel : Nat) : List String :=
  roots.foldl (fun vis n => if n ∈ vis then vis else visitNode g fuel n vis) []

/-- Modelled from the spec: the traversal as the specification words it, a
    pre-order DFS that descends only through forward edges (OneToMany and
    OneToOne), never through a BelongsTo edge.  This is the comparison
    definition for the refinement claim about Traverse; the source Traverse is
    modelled by traverseG above. -/
def visitNodeForward (g : EdgeMap) : Nat → String → List String → List String
  | 0, _, vis => vis
  | fuel + 1, n, vis =>
      (getEdges g n).foldl
        (fun vis e =>
          if e.rel = RelType.belongsTo then vis
          else if e.node ∈ vis then vis
          else visitNodeForward g fuel e.node vis)
        (vis ++ [n])

/-- Modelled from the spec: root loop of the forward-only traversal. -/
def traverseForward (g : EdgeMap) (roots : List String) (fuel : Nat) : List String :=
  roots.foldl (fun vis n => if n ∈ vis then vis else visitNodeForward g fuel n vis) []

/-- GraphQL output types as built by store/graphql.go: the Boolean, Int and
    String scalars, the custom Map scalar, object types named after tables,
    and list wrappers. -/
inductive GqlType where
  | boolean
  | int
  | string
  | mapScalar
  | object (name : String)
  | list (t : GqlType)
deriving DecidableEq, Repr

/-- The name of the implicit id field added to every GraphQL type.  The
    tableIDField constant is declared outside the files available here; the
    spec fixes it to the string underscore-id. -/
def tableIDField : String := "_id"

/-- graphQLFieldType (graphql.go): cty.Bool to Boolean, cty.Number to Int,
    cty.String to String, object and map types to the custom Map scalar;
    every other type, in particular a list type, hits the default branch and
    panics, which is modelled as none. -/
def graphQLFieldType (f : TableField) : Option GqlType :=
  match f.type with
  | .bool => some .boolean
  | .number => some .int
  | .string => some .string
  | .object => some .mapScalar
  | .map => some .mapScalar
  | .list => none

/-- Field loop of addGraphFields (graphql.go): assign for every declared field
    its GraphQL type under its name, stopping with none when graphQLFieldType
    panics.  The same map content is stored both in typeFields and in Args. -/
def fieldTypesOf : List TableField → List (String × GqlType) → Option (List (String × GqlType))
  | [], m => some m
  | f :: fs, m =>
      match graphQLFieldType f with
      | none => none
      | some ty => fieldTypesOf fs (insertKV m f.name ty)

/-- typeFields of addGraphFields after the field loop: the declared fields
    followed by the implicit id field of type String. -/
def typeFieldsOfTable (t : Table) : Option (List (String × GqlType)) :=
  (fieldTypesOf t.fields []).map (fun m => insertKV m tableIDField .string)

/-- Args of addGraphFields at the moment graphQLFilterType is called: the
    declared fields plus the id field, with the same types as typeFields
    (the filter, order and pagination arguments are assigned afterwards). -/
def argsOfTable (t : Table) : Option (List (String × GqlType)) :=
  typeFieldsOfTable t

/-- scalarFilters (graphql.go): suffixes whose member keeps the scalar type. -/
def scalarFilters : List String := ["_gt", "_lt", "_gte", "_lte"]

/-- listFilters (graphql.go): suffixes whose member is a list of the type. -/
def listFilters : List String := ["_in", "_not_in"]

/-- All six filter suffixes. -/
def allSuffixes : List String := scalarFilters ++ listFilters

/-- Insert, for one argument name and value type, one member per suffix into
    the filter member map (one inner loop of graphQLFilterType). -/
def insertSuffixed (m : List (String × GqlType)) (n : String) (ty : GqlType) :
    List String → List (String × GqlType)
  | [] => m
  | s :: rest => insertSuffixed (insertKV m (n ++ s) ty) n ty rest

/-- Argument loop of graphQLFilterType: for every argument, first the four
    scalar-filter members with the argument type, then the two list-filter
    members with the list of that type.  Go iterates its map in unspecified
    order; this model iterates the association list in insertion order, which
    is the only order-dependence when generated member names collide. -/
def insertFilters : List (String × GqlType) → List (String × GqlType) → List (String × GqlType)
  | m, [] => m
  | m, (n, a) :: rest =>
      insertFilters (insertSuffixed (insertSuffixed m n a scalarFilters) n (.list a) listFilters) rest

/-- graphQLFilterType (graphql.go): the member map of the generated filter
    input object, built from the given argument map. -/
def graphQLFilterType (args : List (String × GqlType)) : List (String × GqlType) :=
  insertFilters [] args

/-- isScalar (schemagraph.go): an edge yields a scalar GraphQL type unless its
    relationship is OneToMany. -/
def SchemaEdge.isScalar (e : SchemaEdge) : Bool :=
  e.rel ≠ RelType.oneToMany

/-- Type of the GraphQL field that addGraphEdges derives from one edge: the
    destination object type, wrapped in a list when the edge is not scalar. -/
def edgeGqlType (e : SchemaEdge) : GqlType :=
  if e.isScalar then .object e.node else .list (.object e.node)

/-- addGraphEdges (graphql.go): attach on the source object one field per
    edge, named after the destination table, with the type of edgeGqlType. -/
def addEdgesTo (edges : EdgeMap) (n : String) (tf : List (String × GqlType)) :
    List (String × GqlType) :=
  (getEdges edges n).foldl (fun m e => insertKV m e.node (edgeGqlType e)) tf

/-- Build the object types for the visited nodes: for every traversed node,
    its typeFields from addGraphFields with the edge fields from addGraphEdges
    on top; a field-type panic propagates as none.  Nodes missing from the
    index are skipped (unreachable for graphs built by NewSchemaGraph). -/
def buildObjects (g : SchemaGraph) : List String → Option (List (String × List (String × GqlType)))
  | [] => some []
  | n :: rest =>
      match lookupKV g.index n with
      | none => buildObjects g rest
      | some t =>
          match typeFieldsOfTable t with
          | none => none
          | some tf => (buildObjects g rest).map (fun m => insertKV m n (addEdgesTo g.edges n tf))

/-- The GraphQL schema model: the object types plus the top-level query
    fields, each table exposed as a list of its object type. -/
structure GqlSchemaM where
  objects : List (String × List (String × GqlType))
  queryFields : List (String × GqlType)
deriving DecidableEq, Repr

/-- newGraphQLSchema (graphql.go): when the graph has no nodes (no roots) the
    zero-value schema and a nil error are returned at once; otherwise the
    graph is traversed, object types are created for the visited nodes and
    each of them becomes a top-level query field of list type.  The final
    graphql.NewSchema call is an external library constructor and is modelled
    as succeeding; a panic of graphQLFieldType is modelled as none, and a
    returned schema as some. -/
def newGraphQLSchema (g : SchemaGraph) : Option GqlSchemaM :=
  if g.roots.isEmpty then some ⟨[], []⟩
  else
    match buildObjects g (traverseG g.edges g.roots (g.index.length + 1)) with
    | none => none
    | some objs => some ⟨objs, objs.map (fun p => (p.1, GqlType.list (GqlType.object p.1)))⟩

/-- The name of the implicit id column used by addImplicitIDs; the idFieldName
    constant is declared outside the files available here, the spec fixes the
    implicit id column name to the string underscore-id. -/
def idFieldName : String := "_id"

/-- addImplicitIDs (store facade): every table gets an id field of number
    type, plus a parent id field when nested under a parent and no field of
    that name exists yet; the parent passed to the recursion carries the
    already-extended field list. -/
def addImplicitIDs : Option Table → List Table → List Table
  | _, [] => []
  | parent, ⟨nm, fs, js, sg, subs⟩ :: ts =>
      let fs1 := fs ++ [⟨idFieldName, .number, false⟩]
      let fs2 := match parent with
        | some p =>
            if fs1.any (fun f => f.name = p.name ++ "_id") then fs1
            else fs1 ++ [⟨p.name ++ "_id", .number, false⟩]
        | none => fs1
      ⟨nm, fs2, js, sg, addImplicitIDs (some ⟨nm, fs2, js, sg, subs⟩) subs⟩
        :: addImplicitIDs parent ts

/-- Modelled from the spec: crdbpgx.ExecuteTx is an external library function
    (the cockroachdb client) that runs the transaction body once inside a
    single database transaction, keeping the resulting state on success and
    rolling the state back to the original on error. -/
def executeTx {σ : Type} (db : σ) (body : σ → Except String σ) : σ × Option String :=
  match body db with
  | .ok db1 => (db1, none)
  | .error e => (db, some e)

/-- cockroachdb Apply (store/cockroachdb.go): run psqlApplySchema for the whole
    schema inside one ExecuteTx transaction, wrapping a failure message.  The
    body (psqlApplySchema) is not among the available files and is kept as a
    parameter. -/
def cockroachdbApply {σ : Type} (db : σ) (applySchema : σ → Except String σ) :
    σ × Option String :=
  match executeTx db applySchema with
  | (db1, none) => (db1, none)
  | (db1, some e) => (db1, some ("failed to apply tables: " ++ e))

/-- The store facade state: the provider database state and the in-memory
    GraphQL schema guarded by the mutex. -/
structure StoreM (σ : Type) where
  db : σ
  schema : GqlSchemaM

/-- Store.Create (store facade): add the implicit id fields, call the provider
    create (the provider, e.g. the cockroachdb Apply transaction, is a
    parameter returning the new database state and an optional error), then
    build the new GraphQL schema (builder kept as a parameter since the
    tables-based newGraphQLSchema variant is outside the available files);
    only when both steps succeed is the schema swapped in under the lock. -/
def storeCreate {σ : Type} (st : StoreM σ)
    (pCreate : σ → List Table → σ × Option String)
    (build : List Table → Except String GqlSchemaM)
    (tables : List Table) : StoreM σ × Option String :=
  let tables1 := addImplicitIDs none tables
  match pCreate st.db tables1 with
  | (db1, some e) => (⟨db1, st.schema⟩, some ("failed to create in provider: " ++ e))
  | (db1, none) =>
      match build tables1 with
      | .error e => (⟨db1, st.schema⟩, some ("falied to build GraphQL schema: " ++ e))
      | .ok schema => (⟨db1, schema⟩, none)

/-- Every explicit join target occurring anywhere in the table forest, in
    processing order; these are exactly the names connectFrom looks up. -/
def allJoinTargets : List Table → List String
  | [] => []
  | ⟨_, _, js, _, subs⟩ :: ts =>
      js.map TableJoin.table ++ (allJoinTargets subs ++ allJoinTargets ts)

/-- The relations that connectFrom materializes, each as a triple of parent
    name, child name and single flag: one per explicit join of any table, and
    one per nested table with the enclosing table as parent. -/
def allRels : List Table → Option String → List (String × String × Bool)
  | [], _ => []
  | ⟨nm, _, js, sg, subs⟩ :: ts, parent =>
      js.map (fun j => (j.table, nm, j.single))
        ++ (match parent with
            | some p => [(p, nm, sg)]
            | none => [])
        ++ allRels subs (some nm)
        ++ allRels ts parent

/-- The forward relationship an addEdgeFromJoin call creates on the parent
    side: OneToOne when the single flag is set, OneToMany otherwise. -/
def relOf (single : Bool) : RelType :=
  if single then RelType.oneToOne else RelType.oneToMany

/-- Whether an Except result is a success, as a Bool. -/
def exceptOk {ε α : Type} : Except ε α → Bool
  | .ok _ => true
  | .error _ => false

/-- The root list of a graph-construction result, when it succeeded. -/
def graphRoots (r : Except String SchemaGraph) : Option (List String) :=
  match r with
  | .ok g => some g.roots
  | .error _ => none

/-- The edge list of one node of a graph-construction result. -/
def graphEdges (r : Except String SchemaGraph) (n : String) : Option (List SchemaEdge) :=
  match r with
  | .ok g => some (getEdges g.edges n)
  | .error _ => none

/-- Number of forward (OneToOne or OneToMany) edges pointing from the node
    owning this edge list to the named node. -/
def fwdCount (l : List SchemaEdge) (c : String) : Nat :=
  (l.filter (fun e => e.node = c && e.rel != RelType.belongsTo)).length

/-- Number of BelongsTo edges pointing from the node owning this edge list to
    the named node. -/
def belCount (l : List SchemaEdge) (p : String) : Nat :=
  (l.filter (fun e => e.node = p && e.rel == RelType.belongsTo)).length

/-- Pairing invariant of the schema graph: every forward edge from a parent to
    a child is matched by a BelongsTo edge from the child back to the parent,
    counted with multiplicity. -/
def Paired (m : EdgeMap) : Prop :=
  ∀ p c, fwdCount (getEdges m p) c = belCount (getEdges m c) p

/-! Basic lemmas about the Go-map model and edge insertion. -/

theorem lookupKV_insertKV_self {α : Type} (m : List (String × α)) (k : String) (v : α) :
    lookupKV (insertKV m k v) k = some v := by
  induction m with
  | nil => simp [insertKV, lookupKV]
  | cons p rest ih =>
      by_cases h : k = p.1
      · simp [insertKV, lookupKV, h]
      · simp [insertKV, lookupKV, h, ih]

theorem lookupKV_insertKV_ne {α : Type} (m : List (String × α)) (k k' : String) (v : α)
    (h : k' ≠ k) : lookupKV (insertKV m k v) k' = lookupKV m k' := by
  induction m with
  | nil => simp [insertKV, lookupKV, h]
  | cons p rest ih =>
      by_cases hk : k = p.1
      · subst hk
        simp [insertKV, lookupKV, h]
      · by_cases hk' : k' = p.1
        · simp [insertKV, lookupKV, hk, hk']
        · simp [insertKV, lookupKV, hk, hk', ih]

theorem getEdges_appendEdge_self (m : EdgeMap) (n : String) (e : SchemaEdge) :
    getEdges (appendEdge m n e) n = getEdges m n ++ [e] := by
  simp [appendEdge, getEdges, lookupKV_insertKV_self]

theorem getEdges_appendEdge_ne (m : EdgeMap) (n n' : String) (e : SchemaEdge)
    (h : n' ≠ n) : getEdges (appendEdge m n e) n' = getEdges m n' := by
  simp [appendEdge, getEdges, lookupKV_insertKV_ne _ _ _ _ h]

/-- One edge list extends another when the Go code only ever appended to it. -/
def SubEdges (m m' : EdgeMap) : Prop :=
  ∀ n, ∃ l, getEdges m' n = getEdges m n ++ l

theorem SubEdges.refl (m : EdgeMap) : SubEdges m m :=
  fun n => ⟨[], by simp⟩

theorem SubEdges.trans {a b c : EdgeMap} (h1 : SubEdges a b) (h2 : SubEdges b c) :
    SubEdges a c := by
  intro n
  obtain ⟨l1, e1⟩ := h1 n
  obtain ⟨l2, e2⟩ := h2 n
  exact ⟨l1 ++ l2, by rw [e2, e1, List.append_assoc]⟩

theorem SubEdges.appendEdge (m : EdgeMap) (node : String) (e : SchemaEdge) :
    SubEdges m (appendEdge m node e) := by
  intro n
  by_cases h : n = node
  · subst h
    exact ⟨[e], getEdges_appendEdge_self m n e⟩
  · exact ⟨[], by rw [getEdges_appendEdge_ne m node n e h]; simp⟩

theorem SubEdges.addEdgeFromJoin (m : EdgeMap) (p c : String) (u : Bool) :
    SubEdges m (addEdgeFromJoin m p c u) :=
  .trans (.appendEdge m p _) (.appendEdge _ c _)

theorem SubEdges.parentEdge (m : EdgeMap) (parent : Option String) (c : String) (sg : Bool) :
    SubEdges m (parentEdge m parent c sg) := by
  cases parent with
  | none => exact .refl m
  | some p => exact .addEdgeFromJoin m p c sg

theorem SubEdges.mem {m m' : EdgeMap} (h : SubEdges m m') {n : String} {e : SchemaEdge}
    (he : e ∈ getEdges m n) : e ∈ getEdges m' n := by
  obtain ⟨l, hl⟩ := h n
  rw [hl]
  exact List.mem_append_left _ he

theorem connectJoins_sub {d : List String} {c : String} :
    ∀ {js : List TableJoin} {m m' : EdgeMap}, connectJoins d c js m = .ok m' →
      SubEdges m m' := by
  intro js
  induction js with
  | nil =>
      intro m m' h
      simp [connectJoins] at h
      subst h
      exact .refl m
  | cons j rest ih =>
      intro m m' h
      simp only [connectJoins] at h
      split at h
      · exact .trans (.addEdgeFromJoin m j.table c j.single) (ih h)
      · exact absurd h (by simp)

theorem connectFrom_sub (d : List String) :
    ∀ (ts : List Table) (parent : Option String) (m : EdgeMap) {m' : EdgeMap},
      connectFrom d ts parent m = .ok m' → SubEdges m m' := by
  intro ts parent m
  induction ts, parent, m using connectFrom.induct d with
  | case1 parent m =>
      intro m' h
      simp [connectFrom] at h
      subst h
      exact .refl _
  | case2 nm fs js sg subs ts parent m e hj =>
      intro m' h
      rw [connectFrom.eq_def] at h
      simp only [hj] at h
      cases h
  | case3 nm fs js sg subs ts parent m m1 hj e hsub ih1 =>
      intro m' h
      rw [connectFrom.eq_def] at h
      simp only [hj, hsub] at h
      cases h
  | case4 nm fs js sg subs ts parent m m1 hj m3 hsub ih1 ih2 =>
      intro m' h
      rw [connectFrom.eq_def] at h
      simp only [hj, hsub] at h
      exact .trans (connectJoins_sub hj)
        (.trans (.parentEdge m1 parent nm sg) (.trans (ih1 hsub) (ih2 h)))

theorem relOf_ne_belongsTo (u : Bool) : relOf u ≠ RelType.belongsTo := by
  cases u <;> simp [relOf]

theorem addEdgeFromJoin_eq (m : EdgeMap) (p c : String) (u : Bool) :
    addEdgeFromJoin m p c u =
      appendEdge (appendEdge m p ⟨c, relOf u⟩) c ⟨p, RelType.belongsTo⟩ := by
  cases u <;> simp [addEdgeFromJoin, relOf]

theorem mem_addEdgeFromJoin (m : EdgeMap) (p c : String) (u : Bool) :
    (⟨c, relOf u⟩ : SchemaEdge) ∈ getEdges (addEdgeFromJoin m p c u) p ∧
    (⟨p, RelType.belongsTo⟩ : SchemaEdge) ∈ getEdges (addEdgeFromJoin m p c u) c := by
  rw [addEdgeFromJoin_eq]
  constructor
  · by_cases h : p = c
    · subst h
      rw [getEdges_appendEdge_self, getEdges_appendEdge_self]
      simp
    · rw [getEdges_appendEdge_ne (appendEdge m p ⟨c, relOf u⟩) c p ⟨p, RelType.belongsTo⟩ h]
      rw [getEdges_appendEdge_self]
      simp
  · rw [getEdges_appendEdge_self]
    simp

theorem connectJoins_rels {d : List String} {c : String} :
    ∀ {js : List TableJoin} {m m' : EdgeMap}, connectJoins d c js m = .ok m' →
      ∀ j ∈ js, (⟨c, relOf j.single⟩ : SchemaEdge) ∈ getEdges m' j.table ∧
        (⟨j.table, RelType.belongsTo⟩ : SchemaEdge) ∈ getEdges m' c := by
  intro js
  induction js with
  | nil => intro m m' h j hj; cases hj
  | cons j0 rest ih =>
      intro m m' h j hj
      rw [List.mem_cons] at hj
      simp only [connectJoins] at h
      split at h
      · rcases hj with rfl | hj
        · have hmem := mem_addEdgeFromJoin m j.table c j.single
          have hsub := connectJoins_sub h
          exact ⟨hsub.mem hmem.1, hsub.mem hmem.2⟩
        · exact ih h j hj
      · cases h

theorem parentEdge_some_mem (m : EdgeMap) (p c : String) (sg : Bool) :
    (⟨c, relOf sg⟩ : SchemaEdge) ∈ getEdges (parentEdge m (some p) c sg) p ∧
    (⟨p, RelType.belongsTo⟩ : SchemaEdge) ∈ getEdges (parentEdge m (some p) c sg) c := by
  simp only [parentEdge]
  exact mem_addEdgeFromJoin m p c sg

theorem connectFrom_rels (d : List String) :
    ∀ (ts : List Table) (parent : Option String) (m : EdgeMap) {m' : EdgeMap},
      connectFrom d ts parent m = .ok m' →
      ∀ r ∈ allRels ts parent,
        (⟨r.2.1, relOf r.2.2⟩ : SchemaEdge) ∈ getEdges m' r.1 ∧
        (⟨r.1, RelType.belongsTo⟩ : SchemaEdge) ∈ getEdges m' r.2.1 := by
  intro ts parent m
  induction ts, parent, m using connectFrom.induct d with
  | case1 parent m =>
      intro m' h r hr
      simp [allRels] at hr
  | case2 nm fs js sg subs ts parent m e hj =>
      intro m' h
      rw [connectFrom.eq_def] at h
      simp only [hj] at h
      cases h
  | case3 nm fs js sg subs ts parent m m1 hj e hsub ih1 =>
      intro m' h
      rw [connectFrom.eq_def] at h
      simp only [hj, hsub] at h
      cases h
  | case4 nm fs js sg subs ts parent m m1 hj m3 hsub ih1 ih2 =>
      intro m' h
      rw [connectFrom.eq_def] at h
      simp only [hj, hsub] at h
      have hsub3 : SubEdges m3 m' := connectFrom_sub d ts parent m3 h
      have hsub2 : SubEdges (parentEdge m1 parent nm sg) m' :=
        .trans (connectFrom_sub d subs (some nm) _ hsub) hsub3
      intro r hr
      rw [allRels.eq_def] at hr
      simp only [List.mem_append] at hr
      rcases hr with ((hr | hr) | hr) | hr
      · -- one of the explicit joins of the head table
        simp only [List.mem_map] at hr
        obtain ⟨j, hjmem, rfl⟩ := hr
        have := connectJoins_rels hj j hjmem
        have hsubj : SubEdges m1 m' := .trans (.parentEdge m1 parent nm sg) hsub2
        exact ⟨hsubj.mem this.1, hsubj.mem this.2⟩
      · -- the implicit relation to the enclosing table
        cases parent with
        | none => simp at hr
        | some p =>
            simp only [List.mem_singleton] at hr
            subst hr
            have := parentEdge_some_mem m1 p nm sg
            exact ⟨hsub2.mem this.1, hsub2.mem this.2⟩
      · -- a relation inside the nested tables
        obtain ⟨h1, h2⟩ := ih1 hsub r hr
        exact ⟨hsub3.mem h1, hsub3.mem h2⟩
      · -- a relation among the remaining tables
        exact ih2 h r hr

theorem NewSchemaGraph_def (tables : List Table) :
    NewSchemaGraph tables =
      match connectFrom (declaredNames tables) tables none [] with
      | .ok m => .ok ⟨(tables.filter (fun t => t.joins.isEmpty)).map Table.name, m,
                      createFrom tables []⟩
      | .error e => .error ("failed to create graph: " ++ e) := rfl

theorem connectJoins_ok_iff {d : List String} {c : String} :
    ∀ {js : List TableJoin} {m : EdgeMap},
      (∃ m', connectJoins d c js m = .ok m') ↔ ∀ j ∈ js, j.table ∈ d := by
  intro js
  induction js with
  | nil => intro m; simp [connectJoins]
  | cons j0 rest ih =>
      intro m
      simp only [connectJoins]
      by_cases hd : j0.table ∈ d
      · simp only [hd, if_true]
        rw [ih]
        simp [hd]
      · simp only [hd, if_false]
        constructor
        · intro h
          obtain ⟨m', hm⟩ := h
          cases hm
        · intro h
          exact absurd (h j0 (List.mem_cons_self j0 rest)) hd

theorem connectFrom_ok_iff (d : List String) :
    ∀ (ts : List Table) (parent : Option String) (m : EdgeMap),
      (∃ m', connectFrom d ts parent m = .ok m') ↔
        ∀ x ∈ allJoinTargets ts, x ∈ d := by
  intro ts parent m
  induction ts, parent, m using connectFrom.induct d with
  | case1 parent m =>
      simp [connectFrom, allJoinTargets]
  | case2 nm fs js sg subs ts parent m e hj =>
      rw [connectFrom.eq_def]
      simp only [hj]
      rw [allJoinTargets.eq_def]
      simp only [List.mem_append]
      constructor
      · intro h
        obtain ⟨m', hm⟩ := h
        cases hm
      · intro h
        have : ∀ j ∈ js, j.table ∈ d := by
          intro j hjj
          exact h j.table (Or.inl (List.mem_map_of_mem TableJoin.table hjj))
        obtain ⟨m1, hm1⟩ := connectJoins_ok_iff.mpr this
        rw [hj] at hm1
        cases hm1
  | case3 nm fs js sg subs ts parent m m1 hj e hsub ih1 =>
      rw [connectFrom.eq_def]
      simp only [hj, hsub]
      rw [allJoinTargets.eq_def]
      simp only [List.mem_append]
      constructor
      · intro h
        obtain ⟨m', hm⟩ := h
        cases hm
      · intro h
        have hs : ∀ x ∈ allJoinTargets subs, x ∈ d := by
          intro x hx
          exact h x (Or.inr (Or.inl hx))
        obtain ⟨m', hm⟩ := ih1.mpr hs
        rw [hsub] at hm
        cases hm
  | case4 nm fs js sg subs ts parent m m1 hj m3 hsub ih1 ih2 =>
      rw [connectFrom.eq_def]
      simp only [hj, hsub]
      rw [allJoinTargets.eq_def]
      simp only [List.mem_append]
      constructor
      · intro h x hx
        rcases hx with hx | hx | hx
        · -- a join target of the head table: connectJoins succeeded on js
          have hok : ∃ m', connectJoins d nm js m = .ok m' := ⟨m1, hj⟩
          have := connectJoins_ok_iff.mp hok
          simp only [List.mem_map] at hx
          obtain ⟨j, hjj, rfl⟩ := hx
          exact this j hjj
        · -- a target inside the nested tables: that recursion succeeded
          have := ih1.mp ⟨m3, hsub⟩
          exact this x hx
        · -- a target among the remaining tables
          exact (ih2.mp h) x hx
      · intro h
        apply ih2.mpr
        intro x hx
        exact h x (Or.inr (Or.inr hx))

theorem fwdCount_append (l1 l2 : List SchemaEdge) (c : String) :
    fwdCount (l1 ++ l2) c = fwdCount l1 c + fwdCount l2 c := by
  simp [fwdCount, List.filter_append]

theorem belCount_append (l1 l2 : List SchemaEdge) (p : String) :
    belCount (l1 ++ l2) p = belCount l1 p + belCount l2 p := by
  simp [belCount, List.filter_append]

theorem fwdCount_fwd_singleton (c y : String) (u : Bool) :
    fwdCount [⟨c, relOf u⟩] y = if y = c then 1 else 0 := by
  by_cases h : y = c
  · subst h
    cases u <;> simp [fwdCount, relOf]
  · have h2 : ¬(c = y) := fun hh => h hh.symm
    cases u <;> simp [fwdCount, relOf, h, h2]

theorem fwdCount_bel_singleton (p y : String) :
    fwdCount [⟨p, RelType.belongsTo⟩] y = 0 := by
  simp [fwdCount]

theorem belCount_bel_singleton (p y : String) :
    belCount [⟨p, RelType.belongsTo⟩] y = if y = p then 1 else 0 := by
  by_cases h : y = p
  · subst h
    simp [belCount]
  · have h2 : ¬(p = y) := fun hh => h hh.symm
    simp [belCount, h, h2]

theorem belCount_fwd_singleton (c y : String) (u : Bool) :
    belCount [⟨c, relOf u⟩] y = 0 := by
  cases u <;> simp [belCount, relOf]

theorem getEdges_addEdgeFromJoin (m : EdgeMap) (p c x : String) (u : Bool) :
    getEdges (addEdgeFromJoin m p c u) x =
      getEdges m x
        ++ (if x = p then [⟨c, relOf u⟩] else [])
        ++ (if x = c then [⟨p, RelType.belongsTo⟩] else []) := by
  rw [addEdgeFromJoin_eq]
  by_cases hc : x = c
  · subst hc
    rw [getEdges_appendEdge_self]
    by_cases hp : x = p
    · subst hp
      rw [getEdges_appendEdge_self]
      simp
    · rw [getEdges_appendEdge_ne _ _ _ _ hp]
      simp [hp]
  · rw [getEdges_appendEdge_ne _ _ _ _ hc]
    by_cases hp : x = p
    · subst hp
      rw [getEdges_appendEdge_self]
      simp [hc]
    · rw [getEdges_appendEdge_ne _ _ _ _ hp]
      simp [hp, hc]

theorem fwdCount_nil (y : String) : fwdCount [] y = 0 := by
  simp [fwdCount]

theorem belCount_nil (y : String) : belCount [] y = 0 := by
  simp [belCount]

theorem fwdCount_addEdgeFromJoin (m : EdgeMap) (p c x y : String) (u : Bool) :
    fwdCount (getEdges (addEdgeFromJoin m p c u) x) y =
      fwdCount (getEdges m x) y + (if x = p ∧ y = c then 1 else 0) := by
  rw [getEdges_addEdgeFromJoin, fwdCount_append, fwdCount_append]
  by_cases hp : x = p
  · rw [if_pos hp]
    rw [fwdCount_fwd_singleton]
    by_cases hc : x = c
    · rw [if_pos hc, fwdCount_bel_singleton]
      simp [hp]
    · rw [if_neg hc, fwdCount_nil]
      simp [hp]
  · rw [if_neg hp, fwdCount_nil]
    by_cases hc : x = c
    · rw [if_pos hc, fwdCount_bel_singleton]
      simp [hp]
    · rw [if_neg hc, fwdCount_nil]
      simp [hp]

theorem belCount_addEdgeFromJoin (m : EdgeMap) (p c x y : String) (u : Bool) :
    belCount (getEdges (addEdgeFromJoin m p c u) x) y =
      belCount (getEdges m x) y + (if x = c ∧ y = p then 1 else 0) := by
  rw [getEdges_addEdgeFromJoin, belCount_append, belCount_append]
  by_cases hc : x = c
  · rw [if_pos hc, belCount_bel_singleton]
    by_cases hp : x = p
    · rw [if_pos hp, belCount_fwd_singleton]
      simp [hc]
    · rw [if_neg hp, belCount_nil]
      simp [hc]
  · rw [if_neg hc, belCount_nil]
    by_cases hp : x = p
    · rw [if_pos hp, belCount_fwd_singleton]
      simp [hc]
    · rw [if_neg hp, belCount_nil]
      simp [hc]

theorem paired_addEdgeFromJoin {m : EdgeMap} (h : Paired m) (p c : String) (u : Bool) :
    Paired (addEdgeFromJoin m p c u) := by
  intro x y
  rw [fwdCount_addEdgeFromJoin, belCount_addEdgeFromJoin, h x y]
  congr 1
  by_cases h1 : x = p <;> by_cases h2 : y = c <;> simp [h1, h2]

theorem paired_parentEdge {m : EdgeMap} (h : Paired m) (parent : Option String)
    (c : String) (sg : Bool) : Paired (parentEdge m parent c sg) := by
  cases parent with
  | none => exact h
  | some p => exact paired_addEdgeFromJoin h p c sg

theorem paired_connectJoins {d : List String} {c : String} :
    ∀ {js : List TableJoin} {m m' : EdgeMap}, Paired m →
      connectJoins d c js m = .ok m' → Paired m' := by
  intro js
  induction js with
  | nil =>
      intro m m' h hm
      simp [connectJoins] at hm
      subst hm
      exact h
  | cons j0 rest ih =>
      intro m m' h hm
      simp only [connectJoins] at hm
      split at hm
      · exact ih (paired_addEdgeFromJoin h j0.table c j0.single) hm
      · cases hm

theorem paired_connectFrom (d : List String) :
    ∀ (ts : List Table) (parent : Option String) (m : EdgeMap) {m' : EdgeMap},
      Paired m → connectFrom d ts parent m = .ok m' → Paired m' := by
  intro ts parent m
  induction ts, parent, m using connectFrom.induct d with
  | case1 parent m =>
      intro m' h hm
      simp [connectFrom] at hm
      subst hm
      exact h
  | case2 nm fs js sg subs ts parent m e hj =>
      intro m' h hm
      rw [connectFrom.eq_def] at hm
      simp only [hj] at hm
      cases hm
  | case3 nm fs js sg subs ts parent m m1 hj e hsub ih1 =>
      intro m' h hm
      rw [connectFrom.eq_def] at hm
      simp only [hj, hsub] at hm
      cases hm
  | case4 nm fs js sg subs ts parent m m1 hj m3 hsub ih1 ih2 =>
      intro m' h hm
      rw [connectFrom.eq_def] at hm
      simp only [hj, hsub] at hm
      exact ih2 (ih1 (paired_parentEdge (paired_connectJoins h hj) parent nm sg) hsub) hm

theorem Paired.empty : Paired ([] : EdgeMap) := by
  intro p c
  simp [getEdges, lookupKV, fwdCount, belCount]

theorem foldl_nodup_ext {β : Type} (step : List String → β → List String)
    (hstep : ∀ acc e, acc.Nodup → (step acc e).Nodup ∧ ∃ ext, step acc e = acc ++ ext) :
    ∀ (es : List β) (acc : List String), acc.Nodup →
      (es.foldl step acc).Nodup ∧ ∃ ext, es.foldl step acc = acc ++ ext := by
  intro es
  induction es with
  | nil => intro acc h; exact ⟨h, [], by simp⟩
  | cons e rest ih =>
      intro acc h
      obtain ⟨h1, ext1, he1⟩ := hstep acc e h
      obtain ⟨h2, ext2, he2⟩ := ih (step acc e) h1
      refine ⟨by simpa using h2, ext1 ++ ext2, ?_⟩
      simp only [List.foldl_cons]
      rw [he2, he1, List.append_assoc]

theorem visitNode_nodup (g : EdgeMap) :
    ∀ (fuel : Nat) (n : String) (vis : List String), vis.Nodup → n ∉ vis →
      (visitNode g fuel n vis).Nodup ∧ ∃ ext, visitNode g fuel n vis = vis ++ ext := by
  intro fuel
  induction fuel with
  | zero => intro n vis h _; exact ⟨h, [], by simp [visitNode]⟩
  | succ fuel ih =>
      intro n vis h hn
      have hbase : (vis ++ [n]).Nodup := by
        simp [List.nodup_append, h, hn]
      have hstep : ∀ acc (e : SchemaEdge), acc.Nodup →
          ((if e.node ∈ acc then acc else visitNode g fuel e.node acc).Nodup ∧
           ∃ ext, (if e.node ∈ acc then acc else visitNode g fuel e.node acc) = acc ++ ext) := by
        intro acc e hacc
        by_cases hm : e.node ∈ acc
        · exact ⟨by simpa [hm] using hacc, [], by simp [hm]⟩
        · obtain ⟨h1, ext, he⟩ := ih e.node acc hacc hm
          exact ⟨by simpa [hm] using h1, ext, by simpa [hm] using he⟩
      obtain ⟨h1, ext, he⟩ :=
        foldl_nodup_ext _ hstep (getEdges g n) (vis ++ [n]) hbase
      refine ⟨by simpa [visitNode] using h1, [n] ++ ext, ?_⟩
      simp only [visitNode]
      rw [he, List.append_assoc]

theorem traverseG_nodup (g : EdgeMap) (roots : List String) (fuel : Nat) :
    (traverseG g roots fuel).Nodup := by
  have hstep : ∀ acc (n : String), acc.Nodup →
      ((if n ∈ acc then acc else visitNode g fuel n acc).Nodup ∧
       ∃ ext, (if n ∈ acc then acc else visitNode g fuel n acc) = acc ++ ext) := by
    intro acc n hacc
    by_cases hm : n ∈ acc
    · exact ⟨by simpa [hm] using hacc, [], by simp [hm]⟩
    · obtain ⟨h1, ext, he⟩ := visitNode_nodup g fuel n acc hacc hm
      exact ⟨by simpa [hm] using h1, ext, by simpa [hm] using he⟩
  exact (foldl_nodup_ext _ hstep roots [] (by simp)).1

/-- The generated member names are collision free: two argument names with two
    filter suffixes produce the same member name only when name and suffix
    agree.  Go maps make the outcome of a collision depend on unspecified map
    iteration order, so the exact-membership property is stated under this
    condition. -/
def KeyInj (args : List (String × GqlType)) : Prop :=
  ∀ p1 ∈ args, ∀ p2 ∈ args, ∀ s1 ∈ allSuffixes, ∀ s2 ∈ allSuffixes,
    p1.1 ++ s1 = p2.1 ++ s2 → p1.1 = p2.1 ∧ s1 = s2

theorem mem_insertKV {α : Type} {m : List (String × α)} {k0 : String} {v0 : α} :
    ∀ {q}, q ∈ insertKV m k0 v0 → q ∈ m ∨ q = (k0, v0) := by
  induction m with
  | nil => intro q h; simp [insertKV] at h; exact Or.inr h
  | cons p rest ih =>
      intro q h
      simp only [insertKV] at h
      split at h
      · rcases List.mem_cons.mp h with rfl | h
        · exact Or.inr rfl
        · exact Or.inl (List.mem_cons_of_mem p h)
      · rcases List.mem_cons.mp h with rfl | h
        · exact Or.inl (List.mem_cons_self _ _)
        · rcases ih h with h | h
          · exact Or.inl (List.mem_cons_of_mem p h)
          · exact Or.inr h

theorem insertKV_keys_nodup {α : Type} {m : List (String × α)} (k : String) (v : α)
    (h : (m.map Prod.fst).Nodup) : ((insertKV m k v).map Prod.fst).Nodup := by
  induction m with
  | nil => simp [insertKV]
  | cons p rest ih =>
      simp only [List.map_cons, List.nodup_cons] at h
      simp only [insertKV]
      split
      · next heq =>
          subst heq
          simp only [List.map_cons, List.nodup_cons]
          exact h
      · next hne =>
          simp only [List.map_cons, List.nodup_cons]
          constructor
          · intro hmem
            simp only [List.mem_map] at hmem
            obtain ⟨q, hq, hfst⟩ := hmem
            rcases mem_insertKV hq with hq | rfl
            · apply h.1
              simp only [List.mem_map]
              exact ⟨q, hq, hfst⟩
            · exact hne (hfst ▸ rfl)
          · exact ih h.2

theorem lookupKV_mem_of_nodup {α : Type} {m : List (String × α)} {n : String} {v : α}
    (hnd : (m.map Prod.fst).Nodup) (hm : (n, v) ∈ m) : lookupKV m n = some v := by
  induction m with
  | nil => cases hm
  | cons p rest ih =>
      simp only [List.map_cons, List.nodup_cons] at hnd
      rcases List.mem_cons.mp hm with rfl | hm
      · simp [lookupKV]
      · have hne : n ≠ p.1 := by
          intro heq
          exact hnd.1 (heq ▸ List.mem_map_of_mem Prod.fst hm)
        simp [lookupKV, hne, ih hnd.2 hm]

theorem insertSuffixed_lookup_notin {n : String} {ty : GqlType} :
    ∀ {ss : List String} {m : List (String × GqlType)} {k : String},
      (∀ s ∈ ss, k ≠ n ++ s) →
      lookupKV (insertSuffixed m n ty ss) k = lookupKV m k := by
  intro ss
  induction ss with
  | nil => intro m k _; simp [insertSuffixed]
  | cons s rest ih =>
      intro m k h
      simp only [insertSuffixed]
      rw [ih (fun s' hs' => h s' (List.mem_cons_of_mem s hs'))]
      exact lookupKV_insertKV_ne m (n ++ s) k ty (h s (List.mem_cons_self s rest))

theorem insertSuffixed_lookup_mem {n : String} {ty : GqlType} :
    ∀ {ss : List String} {m : List (String × GqlType)} {s : String}, s ∈ ss →
      (∀ s' ∈ ss, n ++ s' = n ++ s → s' = s) →
      lookupKV (insertSuffixed m n ty ss) (n ++ s) = some ty := by
  intro ss
  induction ss with
  | nil => intro m s h _; cases h
  | cons s0 rest ih =>
      intro m s hs hinj
      simp only [insertSuffixed]
      by_cases hmem : s ∈ rest
      · exact ih hmem (fun s' hs' => hinj s' (List.mem_cons_of_mem s0 hs'))
      · have hs0 : s = s0 := by
          rcases List.mem_cons.mp hs with h | h
          · exact h
          · exact absurd h hmem
        subst hs0
        rw [insertSuffixed_lookup_notin]
        · exact lookupKV_insertKV_self m (n ++ s) ty
        · intro s' hs' heq
          exact hmem ((hinj s' (List.mem_cons_of_mem s hs') heq.symm) ▸ hs')

theorem mem_insertSuffixed {n : String} {ty : GqlType} :
    ∀ {ss : List String} {m : List (String × GqlType)} {q},
      q ∈ insertSuffixed m n ty ss →
      q ∈ m ∨ ∃ s ∈ ss, q = (n ++ s, ty) := by
  intro ss
  induction ss with
  | nil => intro m q h; exact Or.inl (by simpa [insertSuffixed] using h)
  | cons s0 rest ih =>
      intro m q h
      simp only [insertSuffixed] at h
      rcases ih h with h | ⟨s, hs, rfl⟩
      · rcases mem_insertKV h with h | rfl
        · exact Or.inl h
        · exact Or.inr ⟨s0, List.mem_cons_self s0 rest, rfl⟩
      · exact Or.inr ⟨s, List.mem_cons_of_mem s0 hs, rfl⟩

theorem insertFilters_lookup_notin :
    ∀ {args : List (String × GqlType)} {m : List (String × GqlType)} {k : String},
      (∀ p ∈ args, ∀ s ∈ allSuffixes, k ≠ p.1 ++ s) →
      lookupKV (insertFilters m args) k = lookupKV m k := by
  intro args
  induction args with
  | nil => intro m k _; simp [insertFilters]
  | cons p rest ih =>
      intro m k h
      simp only [insertFilters]
      rw [ih (fun p' hp' => h p' (List.mem_cons_of_mem p hp'))]
      have hp := h p (List.mem_cons_self p rest)
      rw [insertSuffixed_lookup_notin, insertSuffixed_lookup_notin]
      · intro s hs
        exact hp s (by simp [allSuffixes, hs])
      · intro s hs
        exact hp s (by simp [allSuffixes, hs])

theorem keyInj_cons {q : String × GqlType} {rest : List (String × GqlType)}
    (h : KeyInj (q :: rest)) : KeyInj rest := by
  intro p1 h1 p2 h2 s1 hs1 s2 hs2 heq
  exact h p1 (List.mem_cons_of_mem q h1) p2 (List.mem_cons_of_mem q h2) s1 hs1 s2 hs2 heq

theorem scalar_mem_all {s : String} (h : s ∈ scalarFilters) : s ∈ allSuffixes := by
  simp [allSuffixes, h]

theorem listf_mem_all {s : String} (h : s ∈ listFilters) : s ∈ allSuffixes := by
  simp [allSuffixes, h]

theorem scalar_not_listf : ∀ s ∈ scalarFilters, s ∉ listFilters := by
  decide

theorem insertFilters_lookup :
    ∀ {args : List (String × GqlType)}, KeyInj args → (args.map Prod.fst).Nodup →
    ∀ {m : List (String × GqlType)}, ∀ p ∈ args,
      (∀ s ∈ scalarFilters, lookupKV (insertFilters m args) (p.1 ++ s) = some p.2) ∧
      (∀ s ∈ listFilters, lookupKV (insertFilters m args) (p.1 ++ s) = some (.list p.2)) := by
  intro args
  induction args with
  | nil => intro _ _ m p hp; cases hp
  | cons q rest ih =>
      intro hinj hnd m p hp
      simp only [List.map_cons, List.nodup_cons] at hnd
      simp only [insertFilters]
      rcases List.mem_cons.mp hp with rfl | hp
      · -- the head argument: its members are written now and never overwritten
        have hskip : ∀ k, (∀ s ∈ allSuffixes, k = p.1 ++ s → False) → True := fun _ _ => trivial
        have hnotin : ∀ (s : String), s ∈ allSuffixes →
            ∀ p' ∈ rest, ∀ s' ∈ allSuffixes, p.1 ++ s ≠ p'.1 ++ s' := by
          intro s hs p' hp' s' hs' heq
          have := hinj p (List.mem_cons_self p rest) p' (List.mem_cons_of_mem p hp')
            s hs s' hs' heq
          exact hnd.1 (this.1 ▸ List.mem_map_of_mem Prod.fst hp')
        constructor
        · intro s hs
          rw [insertFilters_lookup_notin (fun p' hp' s' hs' =>
            hnotin s (scalar_mem_all hs) p' hp' s' hs')]
          rw [insertSuffixed_lookup_notin]
          · exact insertSuffixed_lookup_mem hs (fun s' hs' heq =>
              (hinj p (List.mem_cons_self p rest) p (List.mem_cons_self p rest)
                s' (scalar_mem_all hs') s (scalar_mem_all hs) heq).2)
          · intro s' hs' heq
            have := (hinj p (List.mem_cons_self p rest) p (List.mem_cons_self p rest)
              s (scalar_mem_all hs) s' (listf_mem_all hs') heq).2
            exact scalar_not_listf s hs (this ▸ hs')
        · intro s hs
          rw [insertFilters_lookup_notin (fun p' hp' s' hs' =>
            hnotin s (listf_mem_all hs) p' hp' s' hs')]
          exact insertSuffixed_lookup_mem hs (fun s' hs' heq =>
            (hinj p (List.mem_cons_self p rest) p (List.mem_cons_self p rest)
              s' (listf_mem_all hs') s (listf_mem_all hs) heq).2)
      · exact ih (keyInj_cons hinj) hnd.2 p hp

theorem mem_insertFilters :
    ∀ {args : List (String × GqlType)} {m : List (String × GqlType)} {q},
      q ∈ insertFilters m args →
      q ∈ m ∨ ∃ p ∈ args,
        (∃ s ∈ scalarFilters, q = (p.1 ++ s, p.2)) ∨
        (∃ s ∈ listFilters, q = (p.1 ++ s, GqlType.list p.2)) := by
  intro args
  induction args with
  | nil => intro m q h; exact Or.inl (by simpa [insertFilters] using h)
  | cons p0 rest ih =>
      intro m q h
      simp only [insertFilters] at h
      rcases ih h with h | ⟨p, hp, hcase⟩
      · rcases mem_insertSuffixed h with h | ⟨s, hs, rfl⟩
        · rcases mem_insertSuffixed h with h | ⟨s, hs, rfl⟩
          · exact Or.inl h
          · exact Or.inr ⟨p0, List.mem_cons_self p0 rest, Or.inl ⟨s, hs, rfl⟩⟩
        · exact Or.inr ⟨p0, List.mem_cons_self p0 rest, Or.inr ⟨s, hs, rfl⟩⟩
      · exact Or.inr ⟨p, List.mem_cons_of_mem p0 hp, hcase⟩

theorem fieldTypesOf_keys_nodup :
    ∀ {fs : List TableField} {acc : List (String × GqlType)},
      (acc.map Prod.fst).Nodup → ∀ {m}, fieldTypesOf fs acc = some m →
      (m.map Prod.fst).Nodup := by
  intro fs
  induction fs with
  | nil =>
      intro acc h m hm
      simp [fieldTypesOf] at hm
      subst hm
      exact h
  | cons f rest ih =>
      intro acc h m hm
      simp only [fieldTypesOf] at hm
      split at hm
      · cases hm
      · exact ih (insertKV_keys_nodup f.name _ h) hm

theorem argsOfTable_keys_nodup {t : Table} {args : List (String × GqlType)}
    (h : argsOfTable t = some args) : (args.map Prod.fst).Nodup := by
  simp only [argsOfTable, typeFieldsOfTable, Option.map_eq_some'] at h
  obtain ⟨m0, hm0, rfl⟩ := h
  exact insertKV_keys_nodup tableIDField GqlType.string
    (fieldTypesOf_keys_nodup (by simp) hm0)

theorem graphQLFieldType_total {f : TableField} (h : f.type ≠ CtyType.list) :
    ∃ ty, graphQLFieldType f = some ty := by
  cases hf : f.type
  case bool => simp [graphQLFieldType, hf]
  case number => simp [graphQLFieldType, hf]
  case string => simp [graphQLFieldType, hf]
  case object => simp [graphQLFieldType, hf]
  case map => simp [graphQLFieldType, hf]
  case list => exact absurd hf h

theorem lookupKV_insertKV_isSome {α : Type} (m : List (String × α)) (k k' : String) (v : α)
    (h : (lookupKV m k').isSome = true) : (lookupKV (insertKV m k v) k').isSome = true := by
  by_cases hk : k' = k
  · subst hk
    rw [lookupKV_insertKV_self]
    rfl
  · rw [lookupKV_insertKV_ne m k k' v hk]
    exact h

theorem lookupKV_insertKV_self_isSome {α : Type} (m : List (String × α)) (k : String) (v : α) :
    (lookupKV (insertKV m k v) k).isSome = true := by
  rw [lookupKV_insertKV_self]
  rfl

theorem fieldTypesOf_total :
    ∀ {fs : List TableField} {acc : List (String × GqlType)},
      (∀ f ∈ fs, f.type ≠ CtyType.list) →
      ∃ m, fieldTypesOf fs acc = some m ∧
        (∀ k, (lookupKV acc k).isSome = true → (lookupKV m k).isSome = true) ∧
        (∀ f ∈ fs, (lookupKV m f.name).isSome = true) := by
  intro fs
  induction fs with
  | nil =>
      intro acc _
      exact ⟨acc, by simp [fieldTypesOf], fun k h => h, fun f hf => absurd hf (by simp)⟩
  | cons f rest ih =>
      intro acc h
      obtain ⟨ty, hty⟩ := graphQLFieldType_total (h f (List.mem_cons_self f rest))
      obtain ⟨m, hm, hpres, hall⟩ := ih (fun f' hf' => h f' (List.mem_cons_of_mem f hf'))
      refine ⟨m, ?_, ?_, ?_⟩
      · simp only [fieldTypesOf, hty]
        exact hm
      · intro k hk
        exact hpres k (lookupKV_insertKV_isSome acc f.name k ty hk)
      · intro f' hf'
        rcases List.mem_cons.mp hf' with rfl | hf'
        · exact hpres f'.name (lookupKV_insertKV_self_isSome acc f'.name ty)
        · exact hall f' hf'

theorem storeCreate_error_preserves_schema {σ : Type} (st : StoreM σ)
    (pCreate : σ → List Table → σ × Option String)
    (build : List Table → Except String GqlSchemaM) (tables : List Table) :
    ∀ e, (storeCreate st pCreate build tables).2 = some e →
      (storeCreate st pCreate build tables).1.schema = st.schema := by
  intro e h
  simp only [storeCreate] at h ⊢
  rcases hp : pCreate st.db (addImplicitIDs none tables) with ⟨db1, oe⟩
  cases oe with
  | some e0 => simp [hp]
  | none =>
      cases hb : build (addImplicitIDs none tables) with
      | error e0 => simp [hp, hb]
      | ok schema =>
          rw [hp] at h
          simp only [hb] at h
          cases h

theorem executeTx_error_rolls_back {σ : Type} (db : σ) (body : σ → Except String σ) :
    ∀ e, body db = .error e → (cockroachdbApply db body).1 = db := by
  intro e h
  simp [cockroachdbApply, executeTx, h]

theorem newGraphQLSchema_empty_roots {g : SchemaGraph} (h : g.roots = []) :
    newGraphQLSchema g = some ⟨[], []⟩ := by
  simp [newGraphQLSchema, h]

theorem NewSchemaGraph_roots_empty_iff {tables : List Table} {g : SchemaGraph}
    (h : NewSchemaGraph tables = .ok g) :
    (g.roots = [] ↔ ∀ t ∈ tables, t.joins ≠ []) := by
  rw [NewSchemaGraph_def] at h
  cases hc : connectFrom (declaredNames tables) tables none [] with
  | error e => rw [hc] at h; cases h
  | ok m =>
      rw [hc] at h
      simp only [Except.ok.injEq] at h
      subst h
      simp only [List.map_eq_nil_iff, List.filter_eq_nil_iff]
      constructor
      · intro hall t ht hjoins
        exact hall t ht (by simp [hjoins])
      · intro hall t ht hempty
        exact hall t ht (List.isEmpty_iff.mp hempty)

/-! Concrete schemas used to instantiate and to refute the claims.  The edge
    maps and node indexes below are the values the embedded construction
    computes; each graph lemma proves this. -/

/-- Table alpha, explicitly joining beta (spec scenario: A joins B). -/
def tblAlpha : Table := ⟨"alpha", [], [⟨"beta", false, false⟩], false, []⟩

/-- Table beta, explicitly joining alpha (spec scenario: B joins A). -/
def tblBeta : Table := ⟨"beta", [], [⟨"alpha", false, false⟩], false, []⟩

/-- The two-table join cycle of the spec scenario Rejected cycle. -/
def cycTables : List Table := [tblAlpha, tblBeta]

/-- The edge map the construction builds for the cycle. -/
def cycEdges : EdgeMap :=
  [("beta", [⟨"alpha", .oneToMany⟩, ⟨"alpha", .belongsTo⟩]),
   ("alpha", [⟨"beta", .belongsTo⟩, ⟨"beta", .oneToMany⟩])]

/-- The node index for the cycle. -/
def cycIndex : List (String × Table) := [("alpha", tblAlpha), ("beta", tblBeta)]

theorem cyc_graph : NewSchemaGraph cycTables = .ok ⟨[], cycEdges, cycIndex⟩ := by
  have hd : declaredNames cycTables = ["alpha", "beta"] := by
    simp [declaredNames, cycTables, tblAlpha, tblBeta]
  have hc : connectFrom ["alpha", "beta"] cycTables none [] = .ok cycEdges := by
    simp [connectFrom, connectJoins, parentEdge, addEdgeFromJoin, appendEdge, getEdges,
      insertKV, lookupKV, cycTables, cycEdges, tblAlpha, tblBeta]
  rw [NewSchemaGraph_def, hd, hc]
  simp [cycTables, cycIndex, createFrom, insertKV, tblAlpha, tblBeta, Table.joins, Table.name]

/-- Nested child c of table a, explicitly joining the root table b. -/
def tblC : Table := ⟨"c", [], [⟨"b", false, false⟩], false, []⟩

/-- Nested child d of table a, with no joins of its own. -/
def tblD : Table := ⟨"d", [], [], false, []⟩

/-- Root table a with nested children c and d, in this declaration order. -/
def tblA : Table := ⟨"a", [], [], false, [tblC, tblD]⟩

/-- Root table b with no fields, joins or children. -/
def tblB : Table := ⟨"b", [], [], false, []⟩

/-- Schema where the traversal order shows that Traverse descends through a
    BelongsTo edge: c belongs both to a (nesting) and to b (explicit join). -/
def exTables : List Table := [tblA, tblB]

/-- The edge map the construction builds for exTables. -/
def exEdges : EdgeMap :=
  [("b", [⟨"c", .oneToMany⟩]),
   ("c", [⟨"b", .belongsTo⟩, ⟨"a", .belongsTo⟩]),
   ("a", [⟨"c", .oneToMany⟩, ⟨"d", .oneToMany⟩]),
   ("d", [⟨"a", .belongsTo⟩])]

/-- The node index for exTables. -/
def exIndex : List (String × Table) :=
  [("a", tblA), ("c", tblC), ("d", tblD), ("b", tblB)]

theorem ex_graph : NewSchemaGraph exTables = .ok ⟨["a", "b"], exEdges, exIndex⟩ := by
  have hd : declaredNames exTables = ["a", "c", "d", "b"] := by
    simp [declaredNames, exTables, tblA, tblB, tblC, tblD]
  have hc : connectFrom ["a", "c", "d", "b"] exTables none [] = .ok exEdges := by
    simp [connectFrom, connectJoins, parentEdge, addEdgeFromJoin, appendEdge, getEdges,
      insertKV, lookupKV, exTables, exEdges, tblA, tblB, tblC, tblD]
  rw [NewSchemaGraph_def, hd, hc]
  simp [exTables, exIndex, createFrom, insertKV, tblA, tblB, tblC, tblD,
    Table.joins, Table.name]

/-- Nested child ch that also explicitly joins its enclosing table pa. -/
def tblCh : Table := ⟨"ch", [], [⟨"pa", false, false⟩], false, []⟩

/-- Root table pa with nested child ch. -/
def tblPa : Table := ⟨"pa", [], [], false, [tblCh]⟩

/-- Schema where a table both nests inside a parent and explicitly joins it. -/
def dupTables : List Table := [tblPa]

/-- The edge map the construction builds for dupTables: the pair of edges is
    added twice, once for the explicit join and once for the nesting. -/
def dupEdges : EdgeMap :=
  [("pa", [⟨"ch", .oneToMany⟩, ⟨"ch", .oneToMany⟩]),
   ("ch", [⟨"pa", .belongsTo⟩, ⟨"pa", .belongsTo⟩])]

/-- The node index for dupTables. -/
def dupIndex : List (String × Table) := [("pa", tblPa), ("ch", tblCh)]

/-- The graph built from dupTables. -/
def dupGraph : SchemaGraph := ⟨["pa"], dupEdges, dupIndex⟩

theorem dup_graph : NewSchemaGraph dupTables = .ok dupGraph := by
  have hd : declaredNames dupTables = ["pa", "ch"] := by
    simp [declaredNames, dupTables, tblPa, tblCh]
  have hc : connectFrom ["pa", "ch"] dupTables none [] = .ok dupEdges := by
    simp [connectFrom, connectJoins, parentEdge, addEdgeFromJoin, appendEdge, getEdges,
      insertKV, lookupKV, dupTables, dupEdges, tblPa, tblCh]
  rw [NewSchemaGraph_def, hd, hc]
  simp [dupTables, dupGraph, dupIndex, createFrom, insertKV, tblPa, tblCh,
    Table.joins, Table.name]

/-- Table p, explicitly joining q. -/
def tblP : Table := ⟨"p", [], [⟨"q", false, false⟩], false, []⟩

/-- Table q, explicitly joining p. -/
def tblQ : Table := ⟨"q", [], [⟨"p", false, false⟩], false, []⟩

/-- A second join cycle, giving a graph whose root list is empty. -/
def pqTables : List Table := [tblP, tblQ]

/-- The edge map the construction builds for pqTables. -/
def pqEdges : EdgeMap :=
  [("q", [⟨"p", .oneToMany⟩, ⟨"p", .belongsTo⟩]),
   ("p", [⟨"q", .belongsTo⟩, ⟨"q", .oneToMany⟩])]

/-- The node index for pqTables. -/
def pqIndex : List (String × Table) := [("p", tblP), ("q", tblQ)]

/-- The graph built from pqTables: no table is free of joins, so no root. -/
def pqGraph : SchemaGraph := ⟨[], pqEdges, pqIndex⟩

theorem pq_graph : NewSchemaGraph pqTables = .ok pqGraph := by
  have hd : declaredNames pqTables = ["p", "q"] := by
    simp [declaredNames, pqTables, tblP, tblQ]
  have hc : connectFrom ["p", "q"] pqTables none [] = .ok pqEdges := by
    simp [connectFrom, connectJoins, parentEdge, addEdgeFromJoin, appendEdge, getEdges,
      insertKV, lookupKV, pqTables, pqEdges, tblP, tblQ]
  rw [NewSchemaGraph_def, hd, hc]
  simp [pqTables, pqGraph, pqIndex, createFrom, insertKV, tblP, tblQ,
    Table.joins, Table.name]

/-- Nested child shops of zoo with the single flag set. -/
def tblShops : Table := ⟨"shops", [⟨"sname", .string, true⟩], [], true, []⟩

/-- Root table zoo with one field and the nested child shops. -/
def tblZoo : Table := ⟨"zoo", [⟨"zname", .string, true⟩], [], false, [tblShops]⟩

/-- Table visits, explicitly joining zoo. -/
def tblVisits : Table := ⟨"visits", [], [⟨"zoo", false, false⟩], false, []⟩

/-- A well-formed schema exercising a OneToOne nesting and a OneToMany join. -/
def zooTables : List Table := [tblZoo, tblVisits]

/-- The edge map the construction builds for zooTables. -/
def zooEdges : EdgeMap :=
  [("zoo", [⟨"shops", .oneToOne⟩, ⟨"visits", .oneToMany⟩]),
   ("shops", [⟨"zoo", .belongsTo⟩]),
   ("visits", [⟨"zoo", .belongsTo⟩])]

/-- The node index for zooTables. -/
def zooIndex : List (String × Table) :=
  [("zoo", tblZoo), ("shops", tblShops), ("visits", tblVisits)]

/-- The graph built from zooTables. -/
def zooGraph : SchemaGraph := ⟨["zoo"], zooEdges, zooIndex⟩

theorem zoo_graph : NewSchemaGraph zooTables = .ok zooGraph := by
  have hd : declaredNames zooTables = ["zoo", "shops", "visits"] := by
    simp [declaredNames, zooTables, tblZoo, tblShops, tblVisits]
  have hc : connectFrom ["zoo", "shops", "visits"] zooTables none [] = .ok zooEdges := by
    simp [connectFrom, connectJoins, parentEdge, addEdgeFromJoin, appendEdge, getEdges,
      insertKV, lookupKV, zooTables, zooEdges, tblZoo, tblShops, tblVisits]
  rw [NewSchemaGraph_def, hd, hc]
  simp [zooTables, zooGraph, zooIndex, createFrom, insertKV, tblZoo, tblShops, tblVisits,
    Table.joins, Table.name]

/-! Claim theorems. -/

/-- C1 counterexample: applying the two-table join cycle of the claim (alpha
    explicitly joins beta and beta explicitly joins alpha, both declared) does
    NOT fail: NewSchemaGraph returns a graph and a nil error, so no
    CyclicSchema error exists on this path.  This refutes the claim that
    building the schema graph fails on a belongs-to cycle. -/
theorem c1_counterexample : exceptOk (NewSchemaGraph cycTables) = true := by
  rw [cyc_graph]
  rfl

/-- C1 amended: building the schema graph performs no cycle detection at all;
    whenever every explicit join target is a declared table name the
    construction succeeds, even when the belongs-to projection of the joins is
    cyclic.  The only failure of NewSchemaGraph is an unknown join target. -/
theorem c1_amended_no_cycle_error (tables : List Table)
    (h : ∀ x ∈ allJoinTargets tables, x ∈ declaredNames tables) :
    exceptOk (NewSchemaGraph tables) = true := by
  obtain ⟨m, hm⟩ := (connectFrom_ok_iff (declaredNames tables) tables none []).mpr h
  rw [NewSchemaGraph_def, hm]
  rfl

/-- C1 witness: the amended theorem applied to the cyclic schema itself -
    every join target of the cycle is declared, and construction succeeds. -/
theorem c1_witness :
    (∀ x ∈ allJoinTargets cycTables, x ∈ declaredNames cycTables) ∧
    exceptOk (NewSchemaGraph cycTables) = true := by
  have ht : allJoinTargets cycTables = ["beta", "alpha"] := by
    simp [allJoinTargets, cycTables, tblAlpha, tblBeta]
  have hd : declaredNames cycTables = ["alpha", "beta"] := by
    simp [declaredNames, cycTables, tblAlpha, tblBeta]
  have h : ∀ x ∈ allJoinTargets cycTables, x ∈ declaredNames cycTables := by
    rw [ht, hd]
    decide
  exact ⟨h, c1_amended_no_cycle_error cycTables h⟩

/-- C2 counterexample: on the schema where nested child c of root a also joins
    root b, the source Traverse visits b as a descendant of c through a
    BelongsTo edge, so its visit order differs from the forward-edges-only
    pre-order DFS that the claim describes (modelled by traverseForward).
    The fuel 5 equals the node-index length plus one, which is what the code
    needs since it only ever recurses into unvisited nodes. -/
theorem c2_counterexample :
    NewSchemaGraph exTables = .ok ⟨["a", "b"], exEdges, exIndex⟩ ∧
    traverseG exEdges ["a", "b"] 5 = ["a", "c", "b", "d"] ∧
    traverseForward exEdges ["a", "b"] 5 = ["a", "c", "d", "b"] ∧
    traverseG exEdges ["a", "b"] 5 ≠ traverseForward exEdges ["a", "b"] 5 :=
  ⟨ex_graph, by decide, by decide, by decide⟩

/-- C2 amended: Traverse is a pre-order DFS that follows edges of every
    relationship type, BelongsTo included, in declaration order; what remains
    true of the claim is that the visit callback is applied to every node at
    most once: the visit list (the visited set in visit order) never repeats a
    node, for any graph, root list and recursion budget. -/
theorem c2_amended_visit_at_most_once (g : EdgeMap) (roots : List String) (fuel : Nat) :
    (traverseG g roots fuel).Nodup :=
  traverseG_nodup g roots fuel

/-- C3 counterexample: when table ch both nests inside pa and explicitly joins
    pa, the built graph carries TWO identical OneToMany edges from pa to ch
    (and two BelongsTo edges back), refuting the no-duplicate-edges claim. -/
theorem c3_counterexample :
    NewSchemaGraph dupTables = .ok dupGraph ∧
    getEdges dupGraph.edges "pa" = [⟨"ch", .oneToMany⟩, ⟨"ch", .oneToMany⟩] ∧
    getEdges dupGraph.edges "ch" = [⟨"pa", .belongsTo⟩, ⟨"pa", .belongsTo⟩] :=
  ⟨dup_graph, by decide, by decide⟩

/-- C3 amended: edges do come in pairs - for every ordered pair of nodes the
    number of forward (OneToMany or OneToOne) edges from parent to child
    equals the number of BelongsTo edges from child back to parent, counted
    with multiplicity - but duplicate edges between the same ordered pair DO
    occur, e.g. when a table both nests inside a parent and joins it. -/
theorem c3_amended_edges_paired (tables : List Table) (g : SchemaGraph)
    (h : NewSchemaGraph tables = .ok g) : Paired g.edges := by
  rw [NewSchemaGraph_def] at h
  cases hc : connectFrom (declaredNames tables) tables none [] with
  | error e => rw [hc] at h; cases h
  | ok m =>
      rw [hc] at h
      simp only [Except.ok.injEq] at h
      subst h
      exact paired_connectFrom (declaredNames tables) tables none [] Paired.empty hc

/-- C3 witness: the pairing invariant holds of the graph built from the
    duplicate-edge schema. -/
theorem c3_witness : NewSchemaGraph dupTables = .ok dupGraph ∧ Paired dupGraph.edges :=
  ⟨dup_graph, c3_amended_edges_paired dupTables dupGraph dup_graph⟩

/-- C4 counterexample: a declared field of List type is NOT mapped to a
    GraphQL scalar; graphQLFieldType reaches the default branch and panics
    (modelled as none), refuting the claim that all six declared field types
    are handled without panicking. -/
theorem c4_counterexample :
    graphQLFieldType ⟨"entries", CtyType.list, false⟩ = none := rfl

/-- C4 amended: for the five field types Bool, Number, String, Object and Map
    the mapping is total and the object type of the table is produced, with a
    GraphQL field for every declared field and the implicit id field of type
    String; a field of List type panics. -/
theorem c4_amended_nonlist_total (t : Table)
    (h : ∀ f ∈ t.fields, f.type ≠ CtyType.list) :
    ∃ m, typeFieldsOfTable t = some m ∧
      (∀ f ∈ t.fields, (lookupKV m f.name).isSome = true) ∧
      lookupKV m tableIDField = some GqlType.string := by
  obtain ⟨m0, hm0, hpres, hall⟩ := @fieldTypesOf_total t.fields [] h
  refine ⟨insertKV m0 tableIDField .string, ?_, ?_, ?_⟩
  · simp [typeFieldsOfTable, hm0]
  · intro f hf
    exact lookupKV_insertKV_isSome m0 tableIDField f.name GqlType.string (hall f hf)
  · exact lookupKV_insertKV_self m0 tableIDField GqlType.string

/-- C4 witness: the amended theorem applied to a concrete list-free table. -/
theorem c4_witness :
    (∀ f ∈ (⟨"restaurants", [⟨"rname", .string, true⟩, ⟨"capacity", .number, false⟩],
        [], false, []⟩ : Table).fields, f.type ≠ CtyType.list) ∧
    ∃ m, typeFieldsOfTable (⟨"restaurants", [⟨"rname", .string, true⟩,
        ⟨"capacity", .number, false⟩], [], false, []⟩ : Table) = some m ∧
      (∀ f ∈ (⟨"restaurants", [⟨"rname", .string, true⟩, ⟨"capacity", .number, false⟩],
          [], false, []⟩ : Table).fields, (lookupKV m f.name).isSome = true) ∧
      lookupKV m tableIDField = some GqlType.string :=
  ⟨by decide, c4_amended_nonlist_total _ (by decide)⟩

/-- C5: the GraphQL field built from a graph edge has the list of the
    destination object type exactly when the edge relationship is OneToMany;
    for OneToOne and BelongsTo edges it is the plain destination object type
    (isScalar is true exactly off OneToMany). -/
theorem c5_edge_list_iff_one_to_many (e : SchemaEdge) :
    (edgeGqlType e = GqlType.list (GqlType.object e.node) ↔ e.rel = RelType.oneToMany) ∧
    (edgeGqlType e = GqlType.object e.node ↔
      (e.rel = RelType.oneToOne ∨ e.rel = RelType.belongsTo)) := by
  obtain ⟨n, r⟩ := e
  cases r <;> simp [edgeGqlType, SchemaEdge.isScalar]

/-- C6: for every relation recorded by the schema description - every explicit
    join of a declared child to a declared parent and every nesting of a child
    under its enclosing table - the built graph contains the parent-to-child
    edge with relationship OneToOne when the single flag is set and OneToMany
    otherwise, plus the child-to-parent BelongsTo edge. -/
theorem c6_join_edges_added (tables : List Table) (g : SchemaGraph)
    (h : NewSchemaGraph tables = .ok g) :
    ∀ r ∈ allRels tables none,
      (⟨r.2.1, relOf r.2.2⟩ : SchemaEdge) ∈ getEdges g.edges r.1 ∧
      (⟨r.1, RelType.belongsTo⟩ : SchemaEdge) ∈ getEdges g.edges r.2.1 := by
  rw [NewSchemaGraph_def] at h
  cases hc : connectFrom (declaredNames tables) tables none [] with
  | error e => rw [hc] at h; cases h
  | ok m =>
      rw [hc] at h
      simp only [Except.ok.injEq] at h
      subst h
      exact connectFrom_rels (declaredNames tables) tables none [] hc

/-- C6 witness: on the zoo schema, the single-flagged nested child shops gets
    a OneToOne edge from zoo, the joining table visits gets a OneToMany edge
    from zoo, and both get BelongsTo edges back. -/
theorem c6_witness :
    NewSchemaGraph zooTables = .ok zooGraph ∧
    ("zoo", "shops", true) ∈ allRels zooTables none ∧
    ("zoo", "visits", false) ∈ allRels zooTables none ∧
    (⟨"shops", relOf true⟩ : SchemaEdge) ∈ getEdges zooGraph.edges "zoo" ∧
    (⟨"zoo", RelType.belongsTo⟩ : SchemaEdge) ∈ getEdges zooGraph.edges "shops" ∧
    (⟨"visits", relOf false⟩ : SchemaEdge) ∈ getEdges zooGraph.edges "zoo" ∧
    (⟨"zoo", RelType.belongsTo⟩ : SchemaEdge) ∈ getEdges zooGraph.edges "visits" := by
  have hrels : allRels zooTables none =
      [("zoo", "shops", true), ("zoo", "visits", false)] := by
    simp [allRels, zooTables, tblZoo, tblShops, tblVisits]
  have h1 : ("zoo", "shops", true) ∈ allRels zooTables none := by
    rw [hrels]; decide
  have h2 : ("zoo", "visits", false) ∈ allRels zooTables none := by
    rw [hrels]; decide
  have m1 := c6_join_edges_added zooTables zooGraph zoo_graph ("zoo", "shops", true) h1
  have m2 := c6_join_edges_added zooTables zooGraph zoo_graph ("zoo", "visits", false) h2
  exact ⟨zoo_graph, h1, h2, m1.1, m1.2, m2.1, m2.2⟩

/-- Table whose field names x and x_not make two generated filter member
    names collide: x with suffix _not_in and x_not with suffix _in both
    produce the member name x_not_in. -/
def collideTable : Table :=
  ⟨"w", [⟨"x", .bool, false⟩, ⟨"x_not", .number, false⟩], [], false, []⟩

/-- The argument map built for collideTable: fields plus the id argument. -/
def collideArgs : List (String × GqlType) :=
  [("x", .boolean), ("x_not", .int), ("_id", .string)]

/-- C7 counterexample: for the argument x of type Boolean the claim demands a
    member x_not_in of type list of Boolean, but the member written under
    that name is the list-of-Int member generated from the argument x_not,
    because the two writes collide in the Go member map.  So the filter
    object does not contain, for each argument, exactly the six members with
    the types the claim assigns. -/
theorem c7_counterexample :
    argsOfTable collideTable = some collideArgs ∧
    ("x", GqlType.boolean) ∈ collideArgs ∧
    "_not_in" ∈ listFilters ∧
    lookupKV (graphQLFilterType collideArgs) ("x" ++ "_not_in") =
      some (GqlType.list GqlType.int) ∧
    lookupKV (graphQLFilterType collideArgs) ("x" ++ "_not_in") ≠
      some (GqlType.list GqlType.boolean) := by
  refine ⟨by decide, by decide, by decide, by decide, by decide⟩

/-- C7 amended: for every table whose generated member names are collision
    free (distinct argument name and suffix pairs give distinct member
    names), the filter input object contains for each argument a exactly the
    members a_gt, a_lt, a_gte, a_lte with the argument type and a_in,
    a_not_in with the list of that type, and every member of the object is of
    one of these six forms for some argument. -/
theorem c7_amended_filter_members (t : Table) (args : List (String × GqlType))
    (h : argsOfTable t = some args) (hinj : KeyInj args) :
    (∀ p ∈ args,
      (∀ s ∈ scalarFilters, lookupKV (graphQLFilterType args) (p.1 ++ s) = some p.2) ∧
      (∀ s ∈ listFilters,
        lookupKV (graphQLFilterType args) (p.1 ++ s) = some (GqlType.list p.2))) ∧
    (∀ q ∈ graphQLFilterType args, ∃ p ∈ args,
      (∃ s ∈ scalarFilters, q = (p.1 ++ s, p.2)) ∨
      (∃ s ∈ listFilters, q = (p.1 ++ s, GqlType.list p.2))) := by
  constructor
  · exact fun p hp => insertFilters_lookup hinj (argsOfTable_keys_nodup h) p hp
  · intro q hq
    rcases mem_insertFilters (by simpa [graphQLFilterType] using hq) with h0 | h0
    · cases h0
    · exact h0

/-- The argument map built for the collision-free witness table. -/
def wArgs : List (String × GqlType) :=
  [("zname", .string), ("cap", .int), ("_id", .string)]

/-- C7 witness: the amended theorem applied to a concrete collision-free
    table, reading off two of the generated members. -/
theorem c7_witness :
    argsOfTable (⟨"zoo2", [⟨"zname", .string, true⟩, ⟨"cap", .number, false⟩],
      [], false, []⟩ : Table) = some wArgs ∧
    KeyInj wArgs ∧
    lookupKV (graphQLFilterType wArgs) ("cap" ++ "_gt") = some GqlType.int ∧
    lookupKV (graphQLFilterType wArgs) ("zname" ++ "_not_in") =
      some (GqlType.list GqlType.string) := by
  have h : argsOfTable (⟨"zoo2", [⟨"zname", .string, true⟩, ⟨"cap", .number, false⟩],
      [], false, []⟩ : Table) = some wArgs := by decide
  have hinj : KeyInj wArgs := by
    unfold KeyInj
    decide
  have hmain := c7_amended_filter_members _ wArgs h hinj
  refine ⟨h, hinj, ?_, ?_⟩
  · exact ((hmain.1 ("cap", GqlType.int) (by decide)).1 "_gt" (by decide))
  · exact ((hmain.1 ("zname", GqlType.string) (by decide)).2 "_not_in" (by decide))

/-- C8: the provider applies the whole schema inside a single ExecuteTx
    transaction whose rollback restores the database state on error, and
    Store.Create never swaps the in-memory GraphQL schema in on an error
    path: whenever it returns an error - from the provider create or from
    building the derived GraphQL schema - the schema held by the store is
    unchanged. -/
theorem c8_apply_atomic_schema_unchanged {σ : Type} (st : StoreM σ)
    (pCreate : σ → List Table → σ × Option String)
    (build : List Table → Except String GqlSchemaM) (tables : List Table)
    (db : σ) (body : σ → Except String σ) :
    (∀ e, (storeCreate st pCreate build tables).2 = some e →
      (storeCreate st pCreate build tables).1.schema = st.schema) ∧
    (∀ e, body db = .error e → (cockroachdbApply db body).1 = db) :=
  ⟨storeCreate_error_preserves_schema st pCreate build tables,
   executeTx_error_rolls_back db body⟩

/-- C8 witness: a failing provider create leaves the schema untouched while
    reporting the wrapped error, and a failing transaction body leaves the
    database state unchanged. -/
theorem c8_witness :
    (storeCreate (⟨false, ⟨[], []⟩⟩ : StoreM Bool)
        (fun db _ => (db, some "boom")) (fun _ => .ok ⟨[("t", [])], []⟩) []).2 =
      some "failed to create in provider: boom" ∧
    (storeCreate (⟨false, ⟨[], []⟩⟩ : StoreM Bool)
        (fun db _ => (db, some "boom")) (fun _ => .ok ⟨[("t", [])], []⟩) []).1.schema =
      ⟨[], []⟩ ∧
    (fun _ : Bool => (Except.error "tx fail" : Except String Bool)) false =
      .error "tx fail" ∧
    (cockroachdbApply false (fun _ : Bool => (Except.error "tx fail" : Except String Bool))).1 =
      false := by
  have h2 : (storeCreate (⟨false, ⟨[], []⟩⟩ : StoreM Bool)
      (fun db _ => (db, some "boom")) (fun _ => .ok ⟨[("t", [])], []⟩) []).2 =
      some "failed to create in provider: boom" := by
    simp [storeCreate, addImplicitIDs]
  refine ⟨h2, ?_, rfl, ?_⟩
  · exact (c8_apply_atomic_schema_unchanged (⟨false, ⟨[], []⟩⟩ : StoreM Bool)
      (fun db _ => (db, some "boom")) (fun _ => .ok ⟨[("t", [])], []⟩) []
      false (fun _ => .error "tx fail")).1 "failed to create in provider: boom" h2
  · exact (c8_apply_atomic_schema_unchanged (⟨false, ⟨[], []⟩⟩ : StoreM Bool)
      (fun db _ => (db, some "boom")) (fun _ => .ok ⟨[("t", [])], []⟩) []
      false (fun _ => .error "tx fail")).2 "tx fail" rfl

/-- C9: building the schema graph fails exactly when some declared table has
    an explicit join whose target name is not declared anywhere in the schema
    (also among nested tables); when every join target is declared the
    construction returns a graph and a nil error. -/
theorem c9_error_iff_unknown_join_target (tables : List Table) :
    exceptOk (NewSchemaGraph tables) = true ↔
      ∀ x ∈ allJoinTargets tables, x ∈ declaredNames tables := by
  constructor
  · intro h
    apply (connectFrom_ok_iff (declaredNames tables) tables none []).mp
    rw [NewSchemaGraph_def] at h
    cases hc : connectFrom (declaredNames tables) tables none [] with
    | ok m => exact ⟨m, rfl⟩
    | error e =>
        rw [hc] at h
        simp [exceptOk] at h
  · intro h
    obtain ⟨m, hm⟩ := (connectFrom_ok_iff (declaredNames tables) tables none []).mpr h
    rw [NewSchemaGraph_def, hm]
    rfl

/-- C10: whenever the built graph has an empty root list - which happens
    exactly when no top-level table is free of explicit joins, in particular
    for an empty table list or when all top-level tables form a join cycle -
    building the GraphQL schema returns the zero-value schema (no object
    types, no query fields) and a nil error instead of failing. -/
theorem c10_empty_roots_zero_schema (tables : List Table) (g : SchemaGraph)
    (h : NewSchemaGraph tables = .ok g) :
    (g.roots = [] ↔ ∀ t ∈ tables, t.joins ≠ []) ∧
    (g.roots = [] → newGraphQLSchema g = some ⟨[], []⟩) :=
  ⟨NewSchemaGraph_roots_empty_iff h, fun hr => newGraphQLSchema_empty_roots hr⟩

/-- C10 witness: the p and q join cycle yields a graph with no roots, every
    top-level table having joins, and the zero GraphQL schema with no error. -/
theorem c10_witness :
    NewSchemaGraph pqTables = .ok pqGraph ∧
    (∀ t ∈ pqTables, t.joins ≠ []) ∧
    newGraphQLSchema pqGraph = some ⟨[], []⟩ := by
  refine ⟨pq_graph, ?_, ?_⟩
  · exact (c10_empty_roots_zero_schema pqTables pqGraph pq_graph).1.mp rfl
  · exact (c10_empty_roots_zero_schema pqTables pqGraph pq_graph).2 rfl
